import Mathlib

/-!
Verification of the pill-reminder schedule/streak engine.

The definitions below are shallow embeddings of the TypeScript source:

* timestamps are naturals counting minutes since an epoch; a calendar day
  is the quotient by 1440 (minutes per day);
* `PillLog` / `Pill` mirror the data model of `src/types`;
* `calculateStreak` mirrors `src/utils/time.ts`;
* `stepStreak` / `useStreak` mirror the fold of `src/hooks/useStreak.ts`;
* `markPillTaken`, `snoozePill`, `markPillMissed`, `deletePill`,
  `generateDailyLogs`, `streakData` mirror `src/hooks/usePillSchedule.ts`;
* `logPillTaken`, `logPillMissed`, `snoozePillAppend` mirror
  `src/hooks/usePills.ts`;
* `dayData`, `heatmapData`, `overallCompliance`, `getColorClass` mirror
  `src/components/ComplianceHeatmap.tsx`;
* `setValueLS` mirrors `useLocalStorage.setValue`.

Definitions whose doc comment says so are instead taken from the
specification text, to be compared with the code-derived ones.
-/

/-- Minutes in one calendar day. -/
def minutesPerDay : Nat := 1440

/-- Calendar day of a timestamp (`startOfDay` collapses a timestamp to its
day; two timestamps are on the same local calendar day iff they have the
same `day`). -/
def day (t : Nat) : Nat := t / minutesPerDay

/-- Status of a pill log, from `src/types`. -/
inductive Status where
  | pending
  | taken
  | missed
  | snoozed
deriving DecidableEq, Repr

/-- One concrete occurrence of one pill at one scheduled moment, from
`src/types`. Optional timestamps are `Option Nat`. -/
structure PillLog where
  id : Nat
  pillId : Nat
  scheduledTime : Nat
  status : Status
  takenTime : Option Nat := none
  snoozedUntil : Option Nat := none
deriving DecidableEq, Repr

/-- A medication definition, from `src/types`.  `times` holds
minutes-within-day values. -/
structure Pill where
  id : Nat
  name : String
  dosage : String
  times : List Nat
  color : Option String := none
  notes : Option String := none
deriving DecidableEq, Repr

/-- Sort key used by `calculateStreak`: the `takenTime` of a log (the code
only sorts logs whose `takenTime` is present, so the default is inert). -/
def ttKey (l : PillLog) : Nat := l.takenTime.getD 0

/-- Comparator of the descending-by-`takenTime` sort in
`calculateStreak`. -/
def byTakenDesc (a b : PillLog) : Prop := ttKey b ≤ ttKey a

instance : DecidableRel byTakenDesc := fun a b => Nat.decLe _ _

instance : IsTotal PillLog byTakenDesc :=
  ⟨fun a b => (Nat.le_total (ttKey b) (ttKey a)).elim Or.inl Or.inr⟩

instance : IsTrans PillLog byTakenDesc :=
  ⟨fun _ _ _ hab hbc => Nat.le_trans hbc hab⟩

/-- Comparator of the ascending-by-`scheduledTime` sort in `useStreak`. -/
def bySchedAsc (a b : PillLog) : Prop := a.scheduledTime ≤ b.scheduledTime

instance : DecidableRel bySchedAsc := fun a b => Nat.decLe _ _

instance : IsTotal PillLog bySchedAsc :=
  ⟨fun a b => Nat.le_total _ _⟩

instance : IsTrans PillLog bySchedAsc :=
  ⟨fun _ _ _ hab hbc => Nat.le_trans hab hbc⟩

/-- Descending order on naturals, used to sort distinct calendar dates. -/
def geN (a b : Nat) : Prop := b ≤ a

instance : DecidableRel geN := fun a b => Nat.decLe _ _

instance : IsTotal Nat geN :=
  ⟨fun a b => (Nat.le_total b a).elim Or.inl Or.inr⟩

instance : IsTrans Nat geN :=
  ⟨fun _ _ _ hab hbc => Nat.le_trans hbc hab⟩

instance : IsAntisymm Nat geN :=
  ⟨fun _ _ hab hba => Nat.le_antisymm hba hab⟩

/-- Filter used by `calculateStreak` in `src/utils/time.ts`:
`log.status === 'taken' && log.takenTime`. -/
def isTakenWithTime (l : PillLog) : Bool :=
  l.status == Status.taken && l.takenTime.isSome

/-- The walk of `calculateStreak`: starting from the most recent day with
streak `s`, each next day at distance exactly 1 extends the streak and
becomes current; distance more than 1 stops; distance 0 (same day) or
negative is skipped.  Mirrors the `for` loop of `src/utils/time.ts`. -/
def streakWalk (cur : Nat) (streak : Nat) : List Nat → Nat
  | [] => streak
  | d :: rest =>
    if (cur : Int) - (d : Int) = 1 then streakWalk d (streak + 1) rest
    else if 1 < (cur : Int) - (d : Int) then streak
    else streakWalk cur streak rest

/-- Embedding of `calculateStreak` from `src/utils/time.ts`: filter to
taken logs carrying a `takenTime`, sort descending by `takenTime`, then
walk the calendar days. -/
def calculateStreak (logs : List PillLog) : Nat :=
  match List.insertionSort byTakenDesc (logs.filter isTakenWithTime) with
  | [] => 0
  | l :: rest => streakWalk (day (ttKey l)) 1 (rest.map fun x => day (ttKey x))

/-- Modelled from the spec (reference definition of the streak walk):
with distinct dates sorted descending, count how many handoffs of exactly
one calendar day follow the current date. -/
def countRun (cur : Nat) : List Nat → Nat
  | [] => 0
  | d :: rest => if d + 1 = cur then 1 + countRun d rest else 0

/-- Modelled from the spec: the streak of a distinct descending date list
is one for the most recent date plus the consecutive-day run after it;
the empty list yields zero. -/
def specWalk : List Nat → Nat
  | [] => 0
  | d :: rest => 1 + countRun d rest

/-- Modelled from the spec (§4.2 `calculateStreak` reference definition):
map each `taken` log to the calendar date of its `takenTime`, deduplicate
same-day entries, sort the distinct dates descending, and count from the
most recent date backward while each next date is exactly one day
earlier. -/
def calculateStreakSpec (logs : List PillLog) : Nat :=
  specWalk (List.insertionSort geN
    (((logs.filter isTakenWithTime).map fun l => day (ttKey l)).dedup))

/-- Removes the elements of a run equal to the previous value, keeping the
first occurrence of every value of a monotone list (adjacent
deduplication relative to a preceding value). -/
def dedupFrom (prev : Nat) : List Nat → List Nat
  | [] => []
  | x :: xs => if x = prev then dedupFrom prev xs else x :: dedupFrom x xs

/-- Adjacent deduplication of a monotone list. -/
def dedupAdj : List Nat → List Nat
  | [] => []
  | d :: ds => d :: dedupFrom d ds

theorem dedupFrom_cons_self (prev : Nat) (xs : List Nat) :
    dedupFrom prev (prev :: xs) = dedupFrom prev xs := by
  rw [dedupFrom]
  simp

theorem dedupFrom_cons_ne {x prev : Nat} (xs : List Nat) (h : x ≠ prev) :
    dedupFrom prev (x :: xs) = x :: dedupFrom x xs := by
  rw [dedupFrom]
  simp [h]

theorem dedupFrom_sublist (prev : Nat) (l : List Nat) :
    List.Sublist (dedupFrom prev l) l := by
  induction l generalizing prev with
  | nil => simp [dedupFrom]
  | cons x xs ih =>
    by_cases hx : x = prev
    · subst hx
      rw [dedupFrom_cons_self]
      exact (ih x).trans (List.sublist_cons_self x xs)
    · rw [dedupFrom_cons_ne xs hx]
      exact (ih x).cons₂ x

theorem mem_dedupFrom_of_sorted {prev : Nat} {l : List Nat} (a : Nat)
    (h : List.Sorted geN (prev :: l)) :
    a ∈ dedupFrom prev l ↔ a ∈ l ∧ a ≠ prev := by
  induction l generalizing prev with
  | nil => simp [dedupFrom]
  | cons x xs ih =>
    rw [List.sorted_cons] at h
    obtain ⟨hall, hs⟩ := h
    by_cases hx : x = prev
    · subst hx
      rw [dedupFrom_cons_self]
      rw [@ih x hs]
      constructor
      · rintro ⟨hm, hne⟩
        exact ⟨List.mem_cons_of_mem _ hm, hne⟩
      · rintro ⟨hm, hne⟩
        rcases List.mem_cons.mp hm with h1 | h1
        · exact absurd h1 hne
        · exact ⟨h1, hne⟩
    · have hxl : x < prev := lt_of_le_of_ne (hall x (List.mem_cons_self x xs)) hx
      rw [dedupFrom_cons_ne xs hx]
      rw [List.mem_cons]
      rw [@ih x hs]
      have hsx := List.sorted_cons.mp hs
      constructor
      · rintro (rfl | ⟨hm, hne⟩)
        · exact ⟨List.mem_cons_self _ _, Nat.ne_of_lt hxl⟩
        · have hax : a ≤ x := hsx.1 a hm
          exact ⟨List.mem_cons_of_mem _ hm, Nat.ne_of_lt (lt_of_le_of_lt hax hxl)⟩
      · rintro ⟨hm, hne⟩
        rcases List.mem_cons.mp hm with h1 | h1
        · exact Or.inl h1
        · by_cases hax : a = x
          · exact Or.inl hax
          · exact Or.inr ⟨h1, hax⟩

theorem sorted_gt_dedupFrom {prev : Nat} {l : List Nat}
    (h : List.Sorted geN (prev :: l)) :
    List.Sorted (· > ·) (prev :: dedupFrom prev l) := by
  induction l generalizing prev with
  | nil => simp [dedupFrom]
  | cons x xs ih =>
    rw [List.sorted_cons] at h
    obtain ⟨hall, hs⟩ := h
    by_cases hx : x = prev
    · subst hx
      rw [dedupFrom_cons_self]
      exact @ih x hs
    · have hxl : x < prev := lt_of_le_of_ne (hall x (List.mem_cons_self x xs)) hx
      rw [dedupFrom_cons_ne xs hx]
      have hrec := @ih x hs
      rw [List.sorted_cons]
      refine ⟨fun b hb => ?_, hrec⟩
      rcases List.mem_cons.mp hb with rfl | hb2
      · exact hxl
      · have hbx : b ≤ x := by
          have hmem := (dedupFrom_sublist x xs).subset hb2
          exact (List.sorted_cons.mp hs).1 b hmem
        exact lt_of_le_of_lt hbx hxl

theorem nodup_dedupAdj {l : List Nat} (h : List.Sorted geN l) :
    (dedupAdj l).Nodup := by
  cases l with
  | nil => simp [dedupAdj]
  | cons d ds =>
    have hgt : List.Sorted (· > ·) (d :: dedupFrom d ds) := sorted_gt_dedupFrom h
    exact hgt.nodup

theorem streakWalk_eq_countRun {prev : Nat} {ds : List Nat} (s : Nat)
    (h : List.Sorted geN (prev :: ds)) :
    streakWalk prev s ds = s + countRun prev (dedupFrom prev ds) := by
  induction ds generalizing prev s with
  | nil => simp [streakWalk, dedupFrom, countRun]
  | cons x xs ih =>
    have hxle : x ≤ prev := (List.sorted_cons.mp h).1 x (List.mem_cons_self x xs)
    have hxs : List.Sorted geN (x :: xs) := (List.sorted_cons.mp h).2
    have hps : List.Sorted geN (prev :: xs) := by
      rw [List.sorted_cons]
      refine ⟨fun b hb => ?_, (List.sorted_cons.mp hxs).2⟩
      exact Nat.le_trans ((List.sorted_cons.mp hxs).1 b hb) hxle
    rcases Nat.lt_or_ge x prev with hlt | hge
    · rcases Nat.lt_or_ge (x + 1) prev with hlt2 | hge2
      · have c1 : ¬((prev : Int) - (x : Int) = 1) := by omega
        have c2 : 1 < (prev : Int) - (x : Int) := by omega
        have c3 : x + 1 ≠ prev := by omega
        have c4 : x ≠ prev := by omega
        rw [streakWalk, if_neg c1, if_pos c2, dedupFrom_cons_ne xs c4,
          countRun, if_neg c3]
        omega
      · have heq : x + 1 = prev := by omega
        have c1 : (prev : Int) - (x : Int) = 1 := by omega
        have c4 : x ≠ prev := by omega
        rw [streakWalk, if_pos c1, dedupFrom_cons_ne xs c4, countRun,
          if_pos heq, ih (s + 1) hxs]
        omega
    · have heq : x = prev := Nat.le_antisymm hxle hge
      subst heq
      have c1 : ¬((x : Int) - (x : Int) = 1) := by omega
      have c2 : ¬(1 < (x : Int) - (x : Int)) := by omega
      rw [streakWalk, if_neg c1, if_neg c2, dedupFrom_cons_self,
        ih s hps]

/-- Top of the walk of `calculateStreak`, over the day list of the sorted
taken logs. -/
def walkTop : List Nat → Nat
  | [] => 0
  | d :: ds => streakWalk d 1 ds

theorem walkTop_eq_specWalk_dedupAdj {ds : List Nat}
    (h : List.Sorted geN ds) : walkTop ds = specWalk (dedupAdj ds) := by
  cases ds with
  | nil => simp [walkTop, dedupAdj, specWalk]
  | cons d rest =>
    rw [walkTop, dedupAdj, specWalk, streakWalk_eq_countRun 1 h]

theorem mem_dedupAdj_of_sorted {ds : List Nat} (a : Nat)
    (h : List.Sorted geN ds) : a ∈ dedupAdj ds ↔ a ∈ ds := by
  cases ds with
  | nil => simp [dedupAdj]
  | cons d rest =>
    rw [dedupAdj, List.mem_cons, List.mem_cons, mem_dedupFrom_of_sorted a h]
    constructor
    · rintro (rfl | ⟨hm, _⟩)
      · exact Or.inl rfl
      · exact Or.inr hm
    · rintro (rfl | hm)
      · exact Or.inl rfl
      · by_cases hd : a = d
        · exact Or.inl hd
        · exact Or.inr ⟨hm, hd⟩

theorem sorted_geN_dedupAdj {ds : List Nat} (h : List.Sorted geN ds) :
    List.Sorted geN (dedupAdj ds) := by
  cases ds with
  | nil => simp [dedupAdj]
  | cons d rest =>
    have hgt : List.Sorted (· > ·) (d :: dedupFrom d rest) :=
      sorted_gt_dedupFrom h
    rw [dedupAdj]
    exact hgt.imp fun hab => Nat.le_of_lt hab

theorem eq_of_sorted_geN_nodup {l1 l2 : List Nat}
    (s1 : List.Sorted geN l1) (n1 : l1.Nodup)
    (s2 : List.Sorted geN l2) (n2 : l2.Nodup)
    (hm : ∀ a, a ∈ l1 ↔ a ∈ l2) : l1 = l2 :=
  List.eq_of_perm_of_sorted ((List.perm_ext_iff_of_nodup n1 n2).mpr hm) s1 s2

/-- Day of the `takenTime` of a log (total on the filtered logs, where
`takenTime` is present). -/
def takenDay (l : PillLog) : Nat := day (ttKey l)

theorem day_mono {a b : Nat} (h : a ≤ b) : day a ≤ day b :=
  Nat.div_le_div_right h

theorem sorted_map_takenDay {L : List PillLog}
    (h : List.Sorted byTakenDesc L) :
    List.Sorted geN (L.map takenDay) :=
  List.Pairwise.map takenDay (fun _ _ hab => day_mono hab) h

theorem calculateStreak_eq_walkTop (logs : List PillLog) :
    calculateStreak logs =
      walkTop ((List.insertionSort byTakenDesc
        (logs.filter isTakenWithTime)).map takenDay) := by
  rcases hE : List.insertionSort byTakenDesc (logs.filter isTakenWithTime)
    with _ | ⟨l, rest⟩
  · simp [calculateStreak, walkTop, hE]
  · simp only [calculateStreak, walkTop, hE]
    rfl

theorem calculateStreak_eq_calculateStreakSpec (logs : List PillLog) :
    calculateStreak logs = calculateStreakSpec logs := by
  have hSorted : List.Sorted byTakenDesc
      (List.insertionSort byTakenDesc (logs.filter isTakenWithTime)) :=
    List.sorted_insertionSort byTakenDesc (logs.filter isTakenWithTime)
  have hDays : List.Sorted geN
      ((List.insertionSort byTakenDesc
        (logs.filter isTakenWithTime)).map takenDay) :=
    sorted_map_takenDay hSorted
  rw [calculateStreak_eq_walkTop, walkTop_eq_specWalk_dedupAdj hDays]
  unfold calculateStreakSpec
  congr 1
  apply eq_of_sorted_geN_nodup (sorted_geN_dedupAdj hDays)
    (nodup_dedupAdj hDays)
    (List.sorted_insertionSort geN _)
    ((List.perm_insertionSort geN _).nodup_iff.mpr (List.nodup_dedup _))
  intro a
  rw [mem_dedupAdj_of_sorted a hDays, List.mem_insertionSort, List.mem_dedup]
  exact ((List.perm_insertionSort byTakenDesc
    (logs.filter isTakenWithTime)).map takenDay).mem_iff

/-- C3: `calculateStreak` equals the reference definition (map taken logs
to their `takenTime` calendar dates, deduplicate, sort descending, count
the consecutive-day run from the most recent date up to the first gap);
the empty log yields 0, a single taken entry yields 1, and two taken logs
on the same calendar day count as one day. -/
theorem claim_C3_calculateStreak_matches_reference :
    (∀ logs : List PillLog, calculateStreak logs = calculateStreakSpec logs) ∧
    calculateStreak [] = 0 ∧
    calculateStreak [⟨1, 1, 540, Status.taken, some 545, none⟩] = 1 ∧
    calculateStreak
      [⟨1, 1, 540, Status.taken, some 545, none⟩,
       ⟨2, 1, 1260, Status.taken, some 1265, none⟩] = 1 :=
  ⟨calculateStreak_eq_calculateStreakSpec, by decide, by decide, by decide⟩

/-- Mutable state of the `useStreak` loop in `src/hooks/useStreak.ts`:
`tempStreak`, `bestStreak` and the midnight of the last taken log seen
(`lastDate`, here directly the calendar day). -/
structure StreakState where
  temp : Nat
  best : Nat
  lastDate : Option Nat
deriving DecidableEq, Repr

/-- Day of the `scheduledTime` of a log. -/
def schedDay (l : PillLog) : Nat := day l.scheduledTime

/-- Predicate for logs with status `taken`. -/
def isTakenStatus (l : PillLog) : Bool := l.status == Status.taken

/-- Loop body of `useStreak`: a `taken` log compares its day with
`lastDate` (same day is skipped, a one day difference increments
`tempStreak`, anything else restarts at 1), updates `lastDate` and folds
the new `tempStreak` into `bestStreak`; a `missed` log resets
`tempStreak` to 0; other statuses are ignored. -/
def stepStreak (st : StreakState) (l : PillLog) : StreakState :=
  match l.status with
  | Status.taken =>
    let d := day l.scheduledTime
    let temp :=
      match st.lastDate with
      | none => 1
      | some prev =>
        if (d : Int) - (prev : Int) = 0 then st.temp
        else if (d : Int) - (prev : Int) = 1 then st.temp + 1
        else 1
    { temp := temp, best := max st.best temp, lastDate := some d }
  | Status.missed => { st with temp := 0 }
  | _ => st

/-- Derived streak statistics, from `src/types`. -/
structure StreakData where
  current : Nat
  best : Nat
  lastTaken : Option Nat
deriving DecidableEq, Repr

/-- The `lastTaken` computation shared by `useStreak` and
`usePillSchedule.streakData`: the `takenTime` of the taken log with the
latest `takenTime`. -/
def lastTakenOf (logs : List PillLog) : Option Nat :=
  (List.insertionSort byTakenDesc (logs.filter isTakenWithTime)).head?.bind
    (fun l => l.takenTime)

/-- Final loop state of `useStreak`: the logs sorted by `scheduledTime`
folded through `stepStreak` from the all-zero initial state. -/
def runState (logs : List PillLog) : StreakState :=
  (List.insertionSort bySchedAsc logs).foldl stepStreak ⟨0, 0, none⟩

/-- Embedding of `useStreak` from `src/hooks/useStreak.ts`: sort the logs
by `scheduledTime`, run the loop, then report `tempStreak` as the current
streak when the last taken day is at most one day before `today`, else
0. -/
def useStreak (logs : List PillLog) (today : Nat) : StreakData :=
  if logs.isEmpty then { current := 0, best := 0, lastTaken := none }
  else
    { current :=
        match (runState logs).lastDate with
        | none => 0
        | some last =>
          if (today : Int) - (last : Int) ≤ 1 then (runState logs).temp
          else 0
      best := (runState logs).best
      lastTaken := lastTakenOf logs }

/-- Embedding of the `streakData` memo of
`src/hooks/usePillSchedule.ts`: current is `calculateStreak` of the whole
log (no lapse check), best is the maximum of current and of
`calculateStreak` over every prefix of the taken-filtered log. -/
def streakData (logs : List PillLog) : StreakData :=
  let current := calculateStreak logs
  let takenArr := logs.filter isTakenStatus
  let allStreaks := (List.range takenArr.length).map
    (fun i => calculateStreak (takenArr.take (i + 1)))
  { current := current
    best := allStreaks.foldl max current
    lastTaken := lastTakenOf logs }

/-- Logs that affect the `useStreak` loop state. -/
def isRelevant (l : PillLog) : Bool :=
  l.status == Status.taken || l.status == Status.missed

theorem stepStreak_irrelevant {l : PillLog} (st : StreakState)
    (h : isRelevant l = false) : stepStreak st l = st := by
  rcases l with ⟨i, p, s, status, tt, sn⟩
  cases status <;> simp [isRelevant] at h ⊢ <;> rfl

theorem foldl_stepStreak_filter (l : List PillLog) (st : StreakState) :
    l.foldl stepStreak st = (l.filter isRelevant).foldl stepStreak st := by
  induction l generalizing st with
  | nil => rfl
  | cons x xs ih =>
    by_cases hx : isRelevant x = true
    · rw [List.foldl_cons, List.filter_cons_of_pos hx, List.foldl_cons, ih]
    · rw [List.foldl_cons, List.filter_cons_of_neg (by simp at hx ⊢; exact hx),
        stepStreak_irrelevant st (by simpa using hx), ih]

theorem temp_le_best_foldl (l : List PillLog) (st : StreakState)
    (h : st.temp ≤ st.best) :
    (l.foldl stepStreak st).temp ≤ (l.foldl stepStreak st).best := by
  induction l generalizing st with
  | nil => exact h
  | cons x xs ih =>
    rw [List.foldl_cons]
    apply ih
    rcases x with ⟨i, p, s, status, tt, sn⟩
    cases status <;> simp [stepStreak] <;> omega

theorem le_foldl_max (l : List Nat) (b : Nat) : b ≤ l.foldl max b := by
  induction l generalizing b with
  | nil => exact Nat.le_refl b
  | cons x xs ih =>
    rw [List.foldl_cons]
    exact Nat.le_trans (Nat.le_max_left b x) (ih (max b x))

/-- Whether a list is one unbroken chain of consecutive successors of
`prev`. -/
def chainB (prev : Nat) : List Nat → Bool
  | [] => true
  | x :: xs => x == prev + 1 && chainB x xs

/-- Length of the longest consecutive-successor chain at the front. -/
def preLen (prev : Nat) : List Nat → Nat
  | [] => 0
  | x :: xs => if x = prev + 1 then 1 + preLen x xs else 0

/-- Drops the consecutive-successor chain at the front. -/
def dropChain (prev : Nat) : List Nat → List Nat
  | [] => []
  | x :: xs => if x = prev + 1 then dropChain x xs else x :: xs

/-- Length of the trailing run of consecutive days of an ascending
distinct day list. -/
def trailRun : List Nat → Nat
  | [] => 0
  | x :: xs => if chainB x xs then xs.length + 1 else trailRun xs

/-- Modelled from the spec (definition of the best streak): the length of
the longest run of consecutive calendar days of an ascending distinct day
list. -/
def longestRun : List Nat → Nat
  | [] => 0
  | x :: xs => max (1 + preLen x xs) (longestRun xs)

/-- Pure recursion computing the final `tempStreak` of the `useStreak`
loop over a strictly ascending day list, seeded with `t` after `prev`. -/
def tfun (t prev : Nat) : List Nat → Nat
  | [] => t
  | x :: xs => if x = prev + 1 then tfun (t + 1) x xs else tfun 1 x xs

/-- Pure recursion computing the contribution to `bestStreak` of the
`useStreak` loop over a strictly ascending day list. -/
def cfun (t prev : Nat) : List Nat → Nat
  | [] => 0
  | x :: xs =>
    if x = prev + 1 then max (t + 1) (cfun (t + 1) x xs)
    else max 1 (cfun 1 x xs)

theorem tfun_eq (l : List Nat) : ∀ t prev,
    tfun t prev l = if chainB prev l then t + l.length else trailRun l := by
  induction l with
  | nil => intro t prev; simp [tfun, chainB]
  | cons x xs ih =>
    intro t prev
    by_cases hx : x = prev + 1
    · subst hx
      rw [tfun, if_pos rfl, ih]
      cases hc : chainB (prev + 1) xs with
      | true =>
        simp [chainB, hc]
        omega
      | false => simp [chainB, hc, trailRun]
    · rw [tfun, if_neg hx, ih]
      have hch : chainB prev (x :: xs) = false := by simp [chainB, hx]
      rw [hch]
      cases hc : chainB x xs with
      | true =>
        simp [hc, trailRun]
        omega
      | false => simp [hc, trailRun]

theorem dropChain_longestRun (xs : List Nat) : ∀ x,
    longestRun (dropChain x xs) ≤ longestRun xs ∧
    longestRun xs ≤ max (1 + preLen x xs) (longestRun (dropChain x xs)) := by
  induction xs with
  | nil => intro x; simp [dropChain, longestRun]
  | cons y ys ih =>
    intro x
    by_cases hy : y = x + 1
    · rw [dropChain, if_pos hy, preLen, if_pos hy]
      obtain ⟨h1, h2⟩ := ih y
      constructor
      · exact h1.trans (le_max_right _ _)
      · rw [longestRun]
        apply max_le
        · exact le_trans (by omega) (le_max_left (1 + (1 + preLen y ys)) _)
        · exact le_trans h2 (max_le_max (by omega) (le_refl _))
    · rw [dropChain, if_neg hy, preLen, if_neg hy]
      exact ⟨le_refl _, le_max_right _ _⟩

theorem cfun_eq (l : List Nat) : ∀ t prev,
    cfun t prev l =
      max (if preLen prev l = 0 then 0 else t + preLen prev l)
        (longestRun (dropChain prev l)) := by
  induction l with
  | nil => intro t prev; simp [cfun, preLen, dropChain, longestRun]
  | cons x xs ih =>
    intro t prev
    by_cases hx : x = prev + 1
    · rw [cfun, if_pos hx, ih, preLen, if_pos hx, dropChain, if_pos hx]
      by_cases hp : preLen x xs = 0
      · rw [if_pos hp, hp]
        rw [if_neg (by omega)]
        rw [Nat.max_comm 0 _, Nat.max_zero]
      · rw [if_neg hp, if_neg (by omega), ← Nat.max_assoc]
        have : max (t + 1) (t + 1 + preLen x xs) = t + (1 + preLen x xs) := by
          omega
        rw [this]
    · rw [cfun, if_neg hx, ih, preLen, if_neg hx, dropChain, if_neg hx,
        if_pos rfl, Nat.max_comm 0 _, Nat.max_zero]
      by_cases hp : preLen x xs = 0
      · rw [if_pos hp, Nat.max_comm 0 _, Nat.max_zero, longestRun, hp]
        cases xs with
        | nil => simp [dropChain, longestRun]
        | cons y ys =>
          have hy : ¬(y = x + 1) := by
            intro h
            rw [preLen, if_pos h] at hp
            omega
          rw [dropChain, if_neg hy]
      · rw [if_neg hp, longestRun]
        obtain ⟨h1, h2⟩ := dropChain_longestRun xs x
        have hmax : max (1 + preLen x xs) (longestRun (dropChain x xs)) =
            max (1 + preLen x xs) (longestRun xs) :=
          le_antisymm (max_le_max (le_refl _) h1)
            (max_le (le_max_left _ _) h2)
        rw [← hmax]
        have h1p : (1 : Nat) ≤ 1 + preLen x xs := by omega
        rw [← Nat.max_assoc]
        rw [Nat.max_eq_right h1p]

theorem max_one_cfun (d : Nat) (rest : List Nat) :
    max 1 (cfun 1 d rest) = longestRun (d :: rest) := by
  rw [cfun_eq, longestRun]
  by_cases hp : preLen d rest = 0
  · rw [if_pos hp, Nat.max_comm 0 _, Nat.max_zero, hp]
    cases rest with
    | nil => simp [dropChain, longestRun]
    | cons y ys =>
      have hy : ¬(y = d + 1) := by
        intro h
        rw [preLen, if_pos h] at hp
        omega
      rw [dropChain, if_neg hy]
  · rw [if_neg hp]
    obtain ⟨h1, h2⟩ := dropChain_longestRun rest d
    have hmax : max (1 + preLen d rest) (longestRun (dropChain d rest)) =
        max (1 + preLen d rest) (longestRun rest) :=
      le_antisymm (max_le_max (le_refl _) h1)
        (max_le (le_max_left _ _) h2)
    rw [← Nat.max_assoc, Nat.max_eq_right (by omega : (1:Nat) ≤ 1 + preLen d rest), hmax]

theorem tfun_one_trailRun (d : Nat) (rest : List Nat) :
    tfun 1 d rest = trailRun (d :: rest) := by
  rw [tfun_eq, trailRun]
  by_cases hc : chainB d rest = true
  · rw [if_pos hc, if_pos hc]
    omega
  · have hc2 : chainB d rest = false := by
      revert hc; cases chainB d rest <;> simp
    rw [if_neg (by simp [hc2]), if_neg (by simp [hc2])]

theorem chainB_concat2 (xs : List Nat) : ∀ x a d,
    chainB x ((xs ++ [a]) ++ [d]) =
      (chainB x (xs ++ [a]) && (d == a + 1)) := by
  induction xs with
  | nil =>
    intro x a d
    simp [chainB, Bool.and_assoc]
  | cons y ys ih =>
    intro x a d
    rw [List.cons_append, List.cons_append, chainB, ih, chainB,
      Bool.and_assoc]

theorem trailRun_concat2 (xs : List Nat) : ∀ a d,
    trailRun ((xs ++ [a]) ++ [d]) =
      if d = a + 1 then trailRun (xs ++ [a]) + 1 else 1 := by
  induction xs with
  | nil =>
    intro a d
    by_cases hd : d = a + 1 <;>
      simp [trailRun, chainB, hd]
  | cons x ys ih =>
    intro a d
    rw [List.cons_append, List.cons_append, trailRun, chainB_concat2]
    cases hc : chainB x (ys ++ [a]) with
    | true =>
      by_cases hd : d = a + 1
      · rw [if_pos (by simp [hd]), trailRun, if_pos hc, if_pos hd]
        simp
      · rw [if_neg (by simp [hd]), ih, if_neg hd, if_neg hd]
    | false =>
      rw [Bool.false_and, if_neg (by simp), ih]
      have htr : trailRun (x :: (ys ++ [a])) = trailRun (ys ++ [a]) := by
        rw [trailRun, if_neg (by simp [hc])]
      rw [htr]

theorem specWalk_reverse (m : List Nat) :
    specWalk m = trailRun m.reverse := by
  induction m with
  | nil => rfl
  | cons d rest ih =>
    cases rest with
    | nil => simp [specWalk, countRun, trailRun, chainB]
    | cons a as =>
      rw [List.reverse_cons, List.reverse_cons, trailRun_concat2,
        ← List.reverse_cons, ← ih]
      rw [specWalk, countRun, specWalk]
      by_cases hd : a + 1 = d
      · rw [if_pos hd, if_pos (by omega)]
        omega
      · rw [if_neg hd, if_neg (by omega)]

theorem mem_dedupFrom_of_sorted_asc {prev : Nat} {l : List Nat} (a : Nat)
    (h : List.Sorted (· ≤ ·) (prev :: l)) :
    a ∈ dedupFrom prev l ↔ a ∈ l ∧ a ≠ prev := by
  induction l generalizing prev with
  | nil => simp [dedupFrom]
  | cons x xs ih =>
    rw [List.sorted_cons] at h
    obtain ⟨hall, hs⟩ := h
    by_cases hx : x = prev
    · subst hx
      rw [dedupFrom_cons_self]
      rw [@ih x hs]
      constructor
      · rintro ⟨hm, hne⟩
        exact ⟨List.mem_cons_of_mem _ hm, hne⟩
      · rintro ⟨hm, hne⟩
        rcases List.mem_cons.mp hm with h1 | h1
        · exact absurd h1 hne
        · exact ⟨h1, hne⟩
    · have hxl : prev < x :=
        lt_of_le_of_ne (hall x (List.mem_cons_self x xs)) (Ne.symm hx)
      rw [dedupFrom_cons_ne xs hx]
      rw [List.mem_cons]
      rw [@ih x hs]
      have hsx := List.sorted_cons.mp hs
      constructor
      · rintro (rfl | ⟨hm, hne⟩)
        · exact ⟨List.mem_cons_self _ _, Ne.symm (Nat.ne_of_lt hxl)⟩
        · have hax : x ≤ a := hsx.1 a hm
          exact ⟨List.mem_cons_of_mem _ hm,
            Ne.symm (Nat.ne_of_lt (lt_of_lt_of_le hxl hax))⟩
      · rintro ⟨hm, hne⟩
        rcases List.mem_cons.mp hm with h1 | h1
        · exact Or.inl h1
        · by_cases hax : a = x
          · exact Or.inl hax
          · exact Or.inr ⟨h1, hax⟩

theorem sorted_lt_dedupFrom_asc {prev : Nat} {l : List Nat}
    (h : List.Sorted (· ≤ ·) (prev :: l)) :
    List.Sorted (· < ·) (prev :: dedupFrom prev l) := by
  induction l generalizing prev with
  | nil => simp [dedupFrom]
  | cons x xs ih =>
    rw [List.sorted_cons] at h
    obtain ⟨hall, hs⟩ := h
    by_cases hx : x = prev
    · subst hx
      rw [dedupFrom_cons_self]
      exact @ih x hs
    · have hxl : prev < x :=
        lt_of_le_of_ne (hall x (List.mem_cons_self x xs)) (Ne.symm hx)
      rw [dedupFrom_cons_ne xs hx]
      have hrec := @ih x hs
      rw [List.sorted_cons]
      refine ⟨fun b hb => ?_, hrec⟩
      rcases List.mem_cons.mp hb with rfl | hb2
      · exact hxl
      · have hbx : x ≤ b := by
          have hmem := (dedupFrom_sublist x xs).subset hb2
          exact (List.sorted_cons.mp hs).1 b hmem
        exact lt_of_lt_of_le hxl hbx

theorem nodup_dedupAdj_asc {l : List Nat} (h : List.Sorted (· ≤ ·) l) :
    (dedupAdj l).Nodup := by
  cases l with
  | nil => simp [dedupAdj]
  | cons d ds =>
    have hlt : List.Sorted (· < ·) (d :: dedupFrom d ds) :=
      sorted_lt_dedupFrom_asc h
    exact hlt.nodup

theorem sorted_le_dedupAdj_asc {l : List Nat} (h : List.Sorted (· ≤ ·) l) :
    List.Sorted (· ≤ ·) (dedupAdj l) := by
  cases l with
  | nil => simp [dedupAdj]
  | cons d ds =>
    have hlt : List.Sorted (· < ·) (d :: dedupFrom d ds) :=
      sorted_lt_dedupFrom_asc h
    rw [dedupAdj]
    exact hlt.imp fun hab => Nat.le_of_lt hab

theorem mem_dedupAdj_of_sorted_asc {ds : List Nat} (a : Nat)
    (h : List.Sorted (· ≤ ·) ds) : a ∈ dedupAdj ds ↔ a ∈ ds := by
  cases ds with
  | nil => simp [dedupAdj]
  | cons d rest =>
    rw [dedupAdj, List.mem_cons, List.mem_cons,
      mem_dedupFrom_of_sorted_asc a h]
    constructor
    · rintro (rfl | ⟨hm, _⟩)
      · exact Or.inl rfl
      · exact Or.inr hm
    · rintro (rfl | hm)
      · exact Or.inl rfl
      · by_cases hd : a = d
        · exact Or.inl hd
        · exact Or.inr ⟨hm, hd⟩

theorem eq_of_sorted_le_nodup {l1 l2 : List Nat}
    (s1 : List.Sorted (· ≤ ·) l1) (s2 : List.Sorted (· ≤ ·) l2)
    (n1 : l1.Nodup) (n2 : l2.Nodup)
    (hm : ∀ a, a ∈ l1 ↔ a ∈ l2) : l1 = l2 :=
  List.eq_of_perm_of_sorted ((List.perm_ext_iff_of_nodup n1 n2).mpr hm) s1 s2

theorem reverse_insertionSort_geN (S : List Nat) :
    (List.insertionSort geN S).reverse = List.insertionSort (· ≤ ·) S := by
  have hperm : List.Perm (List.insertionSort geN S).reverse
      (List.insertionSort (· ≤ ·) S) :=
    ((List.insertionSort geN S).reverse_perm.trans
      (List.perm_insertionSort geN S)).trans
      (List.perm_insertionSort (· ≤ ·) S).symm
  have hs1 : List.Sorted (· ≤ ·) (List.insertionSort geN S).reverse :=
    List.pairwise_reverse.mpr (List.sorted_insertionSort geN S)
  exact List.eq_of_perm_of_sorted hperm hs1 (List.sorted_insertionSort _ S)

/-- The `taken` branch of the `useStreak` loop, acting directly on
calendar days. -/
def ascStepN (st : StreakState) (d : Nat) : StreakState :=
  match st.lastDate with
  | none => { temp := 1, best := max st.best 1, lastDate := some d }
  | some prev =>
    if (d : Int) - (prev : Int) = 0 then
      { temp := st.temp, best := max st.best st.temp, lastDate := some d }
    else if (d : Int) - (prev : Int) = 1 then
      { temp := st.temp + 1, best := max st.best (st.temp + 1),
        lastDate := some d }
    else
      { temp := 1, best := max st.best 1, lastDate := some d }

theorem ascStepN_none (t b d : Nat) :
    ascStepN ⟨t, b, none⟩ d = ⟨1, max b 1, some d⟩ := rfl

theorem ascStepN_some (t b prev d : Nat) :
    ascStepN ⟨t, b, some prev⟩ d =
      if (d : Int) - (prev : Int) = 0 then ⟨t, max b t, some d⟩
      else if (d : Int) - (prev : Int) = 1 then
        ⟨t + 1, max b (t + 1), some d⟩
      else ⟨1, max b 1, some d⟩ := rfl

theorem stepStreak_taken {x : PillLog} (st : StreakState)
    (h : x.status = Status.taken) :
    stepStreak st x = ascStepN st (schedDay x) := by
  rcases st with ⟨t, b, ld⟩
  rcases x with ⟨i, p, sch, stat, tt, sn⟩
  obtain rfl : stat = Status.taken := h
  cases ld with
  | none => rfl
  | some prev =>
    have hL : stepStreak ⟨t, b, some prev⟩
        ⟨i, p, sch, Status.taken, tt, sn⟩ =
        ⟨(if (day sch : Int) - (prev : Int) = 0 then t
          else if (day sch : Int) - (prev : Int) = 1 then t + 1 else 1),
         max b (if (day sch : Int) - (prev : Int) = 0 then t
          else if (day sch : Int) - (prev : Int) = 1 then t + 1 else 1),
         some (day sch)⟩ := rfl
    rw [hL]
    simp only [schedDay]
    rw [ascStepN_some]
    by_cases h0 : (day sch : Int) - (prev : Int) = 0
    · rw [if_pos h0, if_pos h0]
    · rw [if_neg h0, if_neg h0]
      by_cases h1 : (day sch : Int) - (prev : Int) = 1
      · rw [if_pos h1, if_pos h1]
      · rw [if_neg h1, if_neg h1]

theorem foldl_stepStreak_taken_map (l : List PillLog)
    (hl : ∀ x ∈ l, x.status = Status.taken) (st : StreakState) :
    l.foldl stepStreak st = (l.map schedDay).foldl ascStepN st := by
  induction l generalizing st with
  | nil => rfl
  | cons x xs ih =>
    rw [List.foldl_cons, List.map_cons, List.foldl_cons,
      stepStreak_taken st (hl x (List.mem_cons_self x xs))]
    exact ih (fun y hy => hl y (List.mem_cons_of_mem x hy)) _

/-- Last element of a nonempty list presented as head plus tail. -/
def lastOfD (x : Nat) : List Nat → Nat
  | [] => x
  | y :: ys => lastOfD y ys

theorem lastOfD_mem (l : List Nat) : ∀ x, lastOfD x l ∈ x :: l := by
  induction l with
  | nil => intro x; simp [lastOfD]
  | cons y ys ih =>
    intro x
    rw [lastOfD]
    exact List.mem_cons_of_mem x (ih y)

theorem le_lastOfD {l : List Nat} {x : Nat}
    (h : List.Sorted (· ≤ ·) (x :: l)) : ∀ a ∈ x :: l, a ≤ lastOfD x l := by
  induction l generalizing x with
  | nil =>
    intro a ha
    rw [List.mem_singleton.mp ha, lastOfD]
  | cons y ys ih =>
    intro a ha
    rw [lastOfD]
    have hs := (List.sorted_cons.mp h).2
    rcases List.mem_cons.mp ha with rfl | ha2
    · exact Nat.le_trans ((List.sorted_cons.mp h).1 y (List.mem_cons_self y ys))
        (ih hs y (List.mem_cons_self y ys))
    · exact ih hs a ha2

theorem foldl_ascStepN_dedup (ds : List Nat) : ∀ (t b prev : Nat),
    List.Sorted (· ≤ ·) (prev :: ds) → t ≤ b →
    List.foldl ascStepN ⟨t, b, some prev⟩ ds =
      List.foldl ascStepN ⟨t, b, some prev⟩ (dedupFrom prev ds) := by
  induction ds with
  | nil => intro t b prev _ _; rfl
  | cons x xs ih =>
    intro t b prev hs htb
    have hxp : prev ≤ x := (List.sorted_cons.mp hs).1 x (List.mem_cons_self x xs)
    have hxs : List.Sorted (· ≤ ·) (x :: xs) := (List.sorted_cons.mp hs).2
    by_cases hx : x = prev
    · subst hx
      rw [dedupFrom_cons_self, List.foldl_cons, ascStepN_some, if_pos (by omega),
        Nat.max_eq_left htb]
      exact ih t b x hxs htb
    · rw [dedupFrom_cons_ne xs hx, List.foldl_cons, List.foldl_cons]
      have hlt : prev < x := lt_of_le_of_ne hxp (Ne.symm hx)
      have h0 : ¬((x : Int) - (prev : Int) = 0) := by omega
      rcases eq_or_ne x (prev + 1) with h1 | h1
      · rw [ascStepN_some, if_neg h0, if_pos (by omega)]
        exact ih (t + 1) (max b (t + 1)) x hxs (Nat.le_max_right b (t + 1))
      · rw [ascStepN_some, if_neg h0, if_neg (by omega)]
        exact ih 1 (max b 1) x hxs (Nat.le_max_right b 1)

theorem foldl_ascStepN_strict (l : List Nat) : ∀ (t b prev : Nat),
    List.Sorted (· < ·) (prev :: l) →
    List.foldl ascStepN ⟨t, b, some prev⟩ l =
      ⟨tfun t prev l, max b (cfun t prev l), some (lastOfD prev l)⟩ := by
  induction l with
  | nil =>
    intro t b prev _
    rw [List.foldl_nil, tfun, cfun, lastOfD, Nat.max_comm b 0, Nat.zero_max]
  | cons d ds ih =>
    intro t b prev hs
    have hlt : prev < d := (List.sorted_cons.mp hs).1 d (List.mem_cons_self d ds)
    have hds : List.Sorted (· < ·) (d :: ds) := (List.sorted_cons.mp hs).2
    have h0 : ¬((d : Int) - (prev : Int) = 0) := by omega
    rw [List.foldl_cons]
    rcases eq_or_ne d (prev + 1) with h1 | h1
    · rw [ascStepN_some, if_neg h0, if_pos (by omega),
        ih (t + 1) (max b (t + 1)) d hds, tfun, if_pos h1, cfun,
        if_pos h1, lastOfD, Nat.max_assoc]
    · rw [ascStepN_some, if_neg h0, if_neg (by omega),
        ih 1 (max b 1) d hds, tfun, if_neg h1, cfun, if_neg h1,
        lastOfD, Nat.max_assoc]

/-- Modelled from the spec (the set of calendar days having at least one
taken entry): the distinct scheduled calendar days of the taken logs,
sorted ascending. -/
def takenDaysAsc (logs : List PillLog) : List Nat :=
  List.insertionSort (· ≤ ·) (((logs.filter isTakenStatus).map schedDay).dedup)

theorem isRelevant_eq_isTaken {l : PillLog} (h : l.status ≠ Status.missed) :
    isRelevant l = isTakenStatus l := by
  rcases l with ⟨i, p, s, status, tt, sn⟩
  cases status <;> simp_all [isRelevant, isTakenStatus]

theorem sorted_days (logs : List PillLog) :
    List.Sorted (· ≤ ·)
      (((List.insertionSort bySchedAsc logs).filter isTakenStatus).map
        schedDay) := by
  have hS : List.Sorted bySchedAsc (List.insertionSort bySchedAsc logs) :=
    List.sorted_insertionSort bySchedAsc logs
  have hT : List.Sorted bySchedAsc
      ((List.insertionSort bySchedAsc logs).filter isTakenStatus) :=
    List.Pairwise.sublist (List.filter_sublist _) hS
  exact List.Pairwise.map schedDay (fun _ _ hab => day_mono hab) hT

theorem runState_noMissed (logs : List PillLog)
    (hnm : ∀ l ∈ logs, l.status ≠ Status.missed) :
    runState logs = List.foldl ascStepN ⟨0, 0, none⟩
      (((List.insertionSort bySchedAsc logs).filter isTakenStatus).map
        schedDay) := by
  rw [runState, foldl_stepStreak_filter]
  have hfc : (List.insertionSort bySchedAsc logs).filter isRelevant =
      (List.insertionSort bySchedAsc logs).filter isTakenStatus := by
    apply List.filter_congr
    intro x hx
    exact isRelevant_eq_isTaken
      (hnm x ((List.perm_insertionSort bySchedAsc logs).subset hx))
  rw [hfc]
  apply foldl_stepStreak_taken_map
  intro x hx
  have := List.of_mem_filter hx
  rwa [isTakenStatus, beq_iff_eq] at this

theorem dedupAdj_days_eq_takenDaysAsc (logs : List PillLog) :
    dedupAdj (((List.insertionSort bySchedAsc logs).filter
      isTakenStatus).map schedDay) = takenDaysAsc logs := by
  have hsd := sorted_days logs
  apply eq_of_sorted_le_nodup (sorted_le_dedupAdj_asc hsd)
    (List.sorted_insertionSort _ _) (nodup_dedupAdj_asc hsd)
    ((List.perm_insertionSort _ _).nodup_iff.mpr (List.nodup_dedup _))
  intro a
  rw [mem_dedupAdj_of_sorted_asc a hsd, List.mem_insertionSort,
    List.mem_dedup]
  exact (((List.perm_insertionSort bySchedAsc logs).filter
    isTakenStatus).map schedDay).mem_iff

theorem foldl_ascStepN_full_cons (d : Nat) (rest : List Nat)
    (hs : List.Sorted (· ≤ ·) (d :: rest)) :
    List.foldl ascStepN ⟨0, 0, none⟩ (d :: rest) =
      ⟨trailRun (dedupAdj (d :: rest)), longestRun (dedupAdj (d :: rest)),
        some (lastOfD d (dedupFrom d rest))⟩ := by
  rw [List.foldl_cons, ascStepN_none, Nat.zero_max,
    foldl_ascStepN_dedup rest 1 1 d hs (le_refl 1),
    foldl_ascStepN_strict _ 1 1 d (sorted_lt_dedupFrom_asc hs),
    tfun_one_trailRun, max_one_cfun]
  rfl

theorem stepStreak_lastDate_taken {x : PillLog} (st : StreakState)
    (h : x.status = Status.taken) :
    (stepStreak st x).lastDate = some (schedDay x) := by
  rw [stepStreak_taken st h]
  rcases st with ⟨t, b, ld⟩
  cases ld with
  | none => rfl
  | some prev =>
    rw [ascStepN_some]
    by_cases h0 : ((schedDay x : Int) - (prev : Int) = 0)
    · rw [if_pos h0]
    · rw [if_neg h0]
      by_cases h1 : ((schedDay x : Int) - (prev : Int) = 1)
      · rw [if_pos h1]
      · rw [if_neg h1]

theorem stepStreak_lastDate_other {x : PillLog} (st : StreakState)
    (h : x.status ≠ Status.taken) :
    (stepStreak st x).lastDate = st.lastDate := by
  rcases x with ⟨i, p, s, status, tt, sn⟩
  cases status <;> first
    | exact absurd rfl h
    | rfl

theorem foldl_stepStreak_lastDate (l : List PillLog) : ∀ st : StreakState,
    (l.foldl stepStreak st).lastDate = st.lastDate ∨
      ∃ x ∈ l, x.status = Status.taken ∧
        (l.foldl stepStreak st).lastDate = some (schedDay x) := by
  induction l with
  | nil => intro st; exact Or.inl rfl
  | cons x xs ih =>
    intro st
    rw [List.foldl_cons]
    by_cases hx : x.status = Status.taken
    · rcases ih (stepStreak st x) with h | ⟨y, hy, hys, hyl⟩
      · refine Or.inr ⟨x, List.mem_cons_self x xs, hx, ?_⟩
        rw [h, stepStreak_lastDate_taken st hx]
      · exact Or.inr ⟨y, List.mem_cons_of_mem x hy, hys, hyl⟩
    · rcases ih (stepStreak st x) with h | ⟨y, hy, hys, hyl⟩
      · refine Or.inl ?_
        rw [h, stepStreak_lastDate_other st hx]
      · exact Or.inr ⟨y, List.mem_cons_of_mem x hy, hys, hyl⟩

theorem foldl_stepStreak_lastDate_keep (l : List PillLog) :
    ∀ st : StreakState, st.lastDate.isSome = true →
    ((l.foldl stepStreak st).lastDate).isSome = true := by
  induction l with
  | nil => intro st h; exact h
  | cons x xs ih =>
    intro st h
    rw [List.foldl_cons]
    apply ih
    by_cases hx : x.status = Status.taken
    · rw [stepStreak_lastDate_taken st hx]
      rfl
    · rw [stepStreak_lastDate_other st hx]
      exact h

theorem foldl_stepStreak_lastDate_isSome (l : List PillLog) :
    ∀ st : StreakState, (∃ x ∈ l, x.status = Status.taken) →
    ((l.foldl stepStreak st).lastDate).isSome = true := by
  induction l with
  | nil =>
    intro st h
    obtain ⟨x, hx, -⟩ := h
    exact absurd hx (List.not_mem_nil x)
  | cons x xs ih =>
    intro st ⟨y, hy, hys⟩
    rw [List.foldl_cons]
    rcases List.mem_cons.mp hy with rfl | hy2
    · apply foldl_stepStreak_lastDate_keep
      rw [stepStreak_lastDate_taken st hys]
      rfl
    · exact ih _ ⟨y, hy2, hys⟩

theorem runState_lastDate_cases (logs : List PillLog) :
    (runState logs).lastDate = none ∨
      ∃ x ∈ logs, x.status = Status.taken ∧
        (runState logs).lastDate = some (schedDay x) := by
  rcases foldl_stepStreak_lastDate (List.insertionSort bySchedAsc logs)
    ⟨0, 0, none⟩ with h | ⟨x, hx, hxs, hxl⟩
  · exact Or.inl h
  · exact Or.inr ⟨x, (List.mem_insertionSort bySchedAsc).mp hx, hxs, hxl⟩

theorem runState_lastDate_isSome (logs : List PillLog)
    (hex : ∃ l ∈ logs, l.status = Status.taken) :
    ((runState logs).lastDate).isSome = true := by
  obtain ⟨w, hw, hws⟩ := hex
  exact foldl_stepStreak_lastDate_isSome _ _
    ⟨w, (List.mem_insertionSort bySchedAsc).mpr hw, hws⟩

theorem isEmpty_false_of_ne_nil {logs : List PillLog} (h : logs ≠ []) :
    logs.isEmpty = false := by
  cases logs with
  | nil => exact absurd rfl h
  | cons a as => rfl

theorem useStreak_current_lapsed (logs : List PillLog) (today : Nat)
    (hex : ∃ l ∈ logs, l.status = Status.taken)
    (hold : ∀ l ∈ logs, l.status = Status.taken →
      (schedDay l : Int) + 1 < today) :
    (useStreak logs today).current = 0 := by
  obtain ⟨w, hw, hws⟩ := hex
  have hne : logs.isEmpty = false :=
    isEmpty_false_of_ne_nil (List.ne_nil_of_mem hw)
  rw [useStreak, if_neg (by simp [hne])]
  show (match (runState logs).lastDate with
    | none => 0
    | some last =>
      if (today : Int) - (last : Int) ≤ 1 then (runState logs).temp
      else 0) = 0
  rcases runState_lastDate_cases logs with hn | ⟨x, hx, hxs, hxl⟩
  · have := runState_lastDate_isSome logs ⟨w, hw, hws⟩
    rw [hn] at this
    exact absurd this (by simp)
  · rw [hxl]
    show (if (today : Int) - ((schedDay x : Nat) : Int) ≤ 1
      then (runState logs).temp else 0) = 0
    rw [if_neg]
    have := hold x hx hxs
    omega

theorem takenDaysAsc_nil_of_no_taken (logs : List PillLog)
    (h : ((List.insertionSort bySchedAsc logs).filter isTakenStatus).map
      schedDay = []) : takenDaysAsc logs = [] := by
  have hT : (List.insertionSort bySchedAsc logs).filter isTakenStatus = [] :=
    List.map_eq_nil_iff.mp h
  have hperm : List.Perm (logs.filter isTakenStatus)
      ((List.insertionSort bySchedAsc logs).filter isTakenStatus) :=
    (List.perm_insertionSort bySchedAsc logs).symm.filter isTakenStatus
  rw [hT] at hperm
  rw [takenDaysAsc, hperm.eq_nil]
  rfl

theorem useStreak_best_noMissed (logs : List PillLog) (today : Nat)
    (hnm : ∀ l ∈ logs, l.status ≠ Status.missed) :
    (useStreak logs today).best = longestRun (takenDaysAsc logs) := by
  by_cases hnil : logs = []
  · subst hnil
    rfl
  · have hne : logs.isEmpty = false := isEmpty_false_of_ne_nil hnil
    rw [useStreak, if_neg (by simp [hne])]
    show (runState logs).best = longestRun (takenDaysAsc logs)
    rcases hdays : ((List.insertionSort bySchedAsc logs).filter
      isTakenStatus).map schedDay with _ | ⟨d, rest⟩
    · rw [runState_noMissed logs hnm, hdays, List.foldl_nil,
        takenDaysAsc_nil_of_no_taken logs hdays]
      rfl
    · rw [runState_noMissed logs hnm, hdays,
        foldl_ascStepN_full_cons d rest (hdays ▸ sorted_days logs)]
      show longestRun (dedupAdj (d :: rest)) = longestRun (takenDaysAsc logs)
      rw [show dedupAdj (d :: rest) = takenDaysAsc logs from
        hdays ▸ dedupAdj_days_eq_takenDaysAsc logs]

theorem useStreak_best_ge_current (logs : List PillLog) (today : Nat) :
    (useStreak logs today).current ≤ (useStreak logs today).best := by
  by_cases hnil : logs.isEmpty = true
  · rw [useStreak, if_pos hnil]
  · rw [useStreak, if_neg hnil]
    show (match (runState logs).lastDate with
      | none => 0
      | some last =>
        if (today : Int) - (last : Int) ≤ 1 then (runState logs).temp
        else 0) ≤ (runState logs).best
    have htb : (runState logs).temp ≤ (runState logs).best :=
      temp_le_best_foldl _ ⟨0, 0, none⟩ (Nat.le_refl 0)
    rcases hld : (runState logs).lastDate with _ | last
    · exact Nat.zero_le _
    · show (if (today : Int) - (last : Int) ≤ 1 then (runState logs).temp
        else 0) ≤ (runState logs).best
      by_cases hc : (today : Int) - (last : Int) ≤ 1
      · rw [if_pos hc]
        exact htb
      · rw [if_neg hc]
        exact Nat.zero_le _

theorem streakData_best_ge_current (logs : List PillLog) :
    (streakData logs).current ≤ (streakData logs).best := by
  show calculateStreak logs ≤ List.foldl max (calculateStreak logs) _
  exact le_foldl_max _ _

theorem calculateStreak_trailRun (logs : List PillLog)
    (halign : ∀ l ∈ logs, l.status = Status.taken →
      ∃ t, l.takenTime = some t ∧ day t = day l.scheduledTime) :
    calculateStreak logs = trailRun (takenDaysAsc logs) := by
  rw [calculateStreak_eq_calculateStreakSpec, calculateStreakSpec,
    specWalk_reverse, reverse_insertionSort_geN]
  have hfil : logs.filter isTakenWithTime = logs.filter isTakenStatus := by
    apply List.filter_congr
    intro l hl
    by_cases hst : l.status = Status.taken
    · obtain ⟨t, htt, -⟩ := halign l hl hst
      simp [isTakenWithTime, isTakenStatus, hst, htt]
    · simp [isTakenWithTime, isTakenStatus, hst]
  have hmap : (logs.filter isTakenStatus).map (fun l => day (ttKey l)) =
      (logs.filter isTakenStatus).map schedDay := by
    apply List.map_congr_left
    intro l hl
    obtain ⟨hl2, hst⟩ := List.mem_filter.mp hl
    obtain ⟨t, htt, hdt⟩ := halign l hl2 (by
      rwa [isTakenStatus, beq_iff_eq] at hst)
    rw [ttKey, htt, Option.getD_some, hdt]
    rfl
  rw [hfil, hmap]
  rfl

theorem useStreak_current_recent (logs : List PillLog) (today : Nat)
    (hnm : ∀ l ∈ logs, l.status ≠ Status.missed)
    (hrecent : ∃ l ∈ logs, l.status = Status.taken ∧
      (today : Int) ≤ (schedDay l : Int) + 1) :
    (useStreak logs today).current = trailRun (takenDaysAsc logs) := by
  obtain ⟨w, hw, hws, hwr⟩ := hrecent
  have hne : logs.isEmpty = false :=
    isEmpty_false_of_ne_nil (List.ne_nil_of_mem hw)
  rw [useStreak, if_neg (by simp [hne])]
  show (match (runState logs).lastDate with
    | none => 0
    | some last =>
      if (today : Int) - (last : Int) ≤ 1 then (runState logs).temp
      else 0) = trailRun (takenDaysAsc logs)
  have hwdays : schedDay w ∈ ((List.insertionSort bySchedAsc logs).filter
      isTakenStatus).map schedDay := by
    apply List.mem_map_of_mem
    exact List.mem_filter.mpr ⟨(List.mem_insertionSort bySchedAsc).mpr hw,
      by simp [isTakenStatus, hws]⟩
  rcases hdays : ((List.insertionSort bySchedAsc logs).filter
    isTakenStatus).map schedDay with _ | ⟨d, rest⟩
  · rw [hdays] at hwdays
    exact absurd hwdays (List.not_mem_nil _)
  · have hrs : runState logs =
        ⟨trailRun (dedupAdj (d :: rest)), longestRun (dedupAdj (d :: rest)),
          some (lastOfD d (dedupFrom d rest))⟩ := by
      rw [runState_noMissed logs hnm, hdays]
      exact foldl_ascStepN_full_cons d rest (hdays ▸ sorted_days logs)
    rw [hrs]
    show (if (today : Int) - ((lastOfD d (dedupFrom d rest) : Nat) : Int) ≤ 1
      then trailRun (dedupAdj (d :: rest)) else 0) =
      trailRun (takenDaysAsc logs)
    have hsledge : List.Sorted (· ≤ ·) (d :: dedupFrom d rest) := by
      have := sorted_le_dedupAdj_asc (hdays ▸ sorted_days logs)
      rwa [dedupAdj] at this
    have hwmem : schedDay w ∈ d :: dedupFrom d rest := by
      have hsd : List.Sorted (· ≤ ·) (d :: rest) := hdays ▸ sorted_days logs
      have : schedDay w ∈ dedupAdj (d :: rest) := by
        rw [mem_dedupAdj_of_sorted_asc (schedDay w) hsd]
        rw [hdays] at hwdays
        exact hwdays
      rwa [dedupAdj] at this
    have hle : schedDay w ≤ lastOfD d (dedupFrom d rest) :=
      le_lastOfD hsledge (schedDay w) hwmem
    rw [if_pos (by omega)]
    rw [show dedupAdj (d :: rest) = takenDaysAsc logs from
      hdays ▸ dedupAdj_days_eq_takenDaysAsc logs]

/-- C4 (counterexample): a log taken today followed by a missed log on the
same day gives `useStreak` current 0 while `calculateStreak` reports the
trailing run 1, although the most recent taken date is today. -/
theorem claim_C4_counterexample :
    (useStreak
      [⟨1, 1, 540, Status.taken, some 545, none⟩,
       ⟨2, 1, 720, Status.missed, none, none⟩] 0).current = 0 ∧
    calculateStreak
      [⟨1, 1, 540, Status.taken, some 545, none⟩,
       ⟨2, 1, 720, Status.missed, none, none⟩] = 1 ∧
    day 545 = 0 := by
  decide

/-- C4 (amended): `useStreak` reports current 0 when every taken log's
scheduled day is more than one day before today; and when the log has no
missed entries, every taken log's `takenTime` falls on its scheduled day,
and some taken log is scheduled today or yesterday, the current streak
equals `calculateStreak` of the log. -/
theorem claim_C4_current_streak_amended (logs : List PillLog) (today : Nat) :
    ((∃ l ∈ logs, l.status = Status.taken) →
      (∀ l ∈ logs, l.status = Status.taken →
        (schedDay l : Int) + 1 < today) →
      (useStreak logs today).current = 0) ∧
    ((∀ l ∈ logs, l.status ≠ Status.missed) →
      (∀ l ∈ logs, l.status = Status.taken →
        ∃ t, l.takenTime = some t ∧ day t = day l.scheduledTime) →
      (∃ l ∈ logs, l.status = Status.taken ∧
        (today : Int) ≤ (schedDay l : Int) + 1) →
      (useStreak logs today).current = calculateStreak logs) :=
  ⟨fun hex hold => useStreak_current_lapsed logs today hex hold,
   fun hnm halign hrecent =>
     (useStreak_current_recent logs today hnm hrecent).trans
       (calculateStreak_trailRun logs halign).symm⟩

theorem claim_C4_current_streak_amended_witness :
    (useStreak [⟨1, 1, 540, Status.taken, some 545, none⟩] 5).current = 0 ∧
    (useStreak [⟨1, 1, 540, Status.taken, some 545, none⟩] 1).current =
      calculateStreak [⟨1, 1, 540, Status.taken, some 545, none⟩] := by
  constructor
  · exact (claim_C4_current_streak_amended
      [⟨1, 1, 540, Status.taken, some 545, none⟩] 5).1 (by decide) (by decide)
  · exact (claim_C4_current_streak_amended
      [⟨1, 1, 540, Status.taken, some 545, none⟩] 1).2 (by decide)
      (by
        intro l hl hst
        rw [List.mem_singleton] at hl
        subst hl
        exact ⟨545, rfl, by decide⟩)
      (by decide)

/-- C5 (counterexample): with a missed log between two taken logs on
consecutive days, `useStreak` reports best 1, while the longest run of
consecutive calendar days with a taken entry over the whole history is
2. -/
theorem claim_C5_counterexample :
    (useStreak
      [⟨1, 1, 540, Status.taken, some 545, none⟩,
       ⟨2, 1, 720, Status.missed, none, none⟩,
       ⟨3, 1, 1980, Status.taken, some 1985, none⟩] 1).best = 1 ∧
    longestRun (takenDaysAsc
      [⟨1, 1, 540, Status.taken, some 545, none⟩,
       ⟨2, 1, 720, Status.missed, none, none⟩,
       ⟨3, 1, 1980, Status.taken, some 1985, none⟩]) = 2 := by
  decide

/-- C5 (amended): when the log has no missed entries, the reported best
streak equals the length of the longest run of consecutive scheduled
calendar days each having a taken entry over the entire history; and in
both streak engines best is always at least the reported current
streak. -/
theorem claim_C5_best_streak_amended (logs : List PillLog) (today : Nat) :
    ((∀ l ∈ logs, l.status ≠ Status.missed) →
      (useStreak logs today).best = longestRun (takenDaysAsc logs)) ∧
    (useStreak logs today).current ≤ (useStreak logs today).best ∧
    (streakData logs).current ≤ (streakData logs).best :=
  ⟨useStreak_best_noMissed logs today,
   useStreak_best_ge_current logs today,
   streakData_best_ge_current logs⟩

theorem claim_C5_best_streak_amended_witness :
    (useStreak
      [⟨1, 1, 540, Status.taken, some 545, none⟩,
       ⟨2, 1, 1980, Status.taken, some 1985, none⟩] 1).best =
      longestRun (takenDaysAsc
        [⟨1, 1, 540, Status.taken, some 545, none⟩,
         ⟨2, 1, 1980, Status.taken, some 1985, none⟩]) :=
  (claim_C5_best_streak_amended
    [⟨1, 1, 540, Status.taken, some 545, none⟩,
     ⟨2, 1, 1980, Status.taken, some 1985, none⟩] 1).1 (by decide)

/-- C6 (counterexample): appending a missed log can decrease the streak
reported by `useStreak`: one taken log today gives current 1, and adding
a later missed log the same day resets it to 0. -/
theorem claim_C6_counterexample :
    (useStreak [⟨1, 1, 600, Status.taken, some 605, none⟩] 0).current = 1 ∧
    (useStreak
      [⟨1, 1, 600, Status.taken, some 605, none⟩,
       ⟨2, 1, 700, Status.missed, none, none⟩] 0).current = 0 := by
  decide

/-- C6 (amended): for `calculateStreak`, adding a log with status missed,
pending or snoozed never changes (hence never decreases) the computed
streak — only the taken entries matter; the `useStreak` fold, by
contrast, resets its in-progress run when it meets a missed log. -/
theorem claim_C6_nontaken_append_amended (logs : List PillLog)
    (e : PillLog) (h : e.status ≠ Status.taken) :
    calculateStreak (logs ++ [e]) = calculateStreak logs := by
  have hfe : isTakenWithTime e = false := by
    rw [isTakenWithTime]
    cases hst : e.status == Status.taken with
    | true => exact absurd (beq_iff_eq.mp hst) h
    | false => rfl
  have hfl : (logs ++ [e]).filter isTakenWithTime =
      logs.filter isTakenWithTime := by
    rw [List.filter_append]
    simp [hfe]
  rw [calculateStreak, hfl, calculateStreak]

theorem claim_C6_nontaken_append_amended_witness :
    calculateStreak
      ([⟨1, 1, 540, Status.taken, some 545, none⟩] ++
        [⟨2, 1, 700, Status.missed, none, none⟩]) =
      calculateStreak [⟨1, 1, 540, Status.taken, some 545, none⟩] :=
  claim_C6_nontaken_append_amended
    [⟨1, 1, 540, Status.taken, some 545, none⟩]
    ⟨2, 1, 700, Status.missed, none, none⟩ (by decide)

/-- Embedding of `markPillTaken` from `src/hooks/usePillSchedule.ts`: the
matching log gets status `taken` and a fresh `takenTime`; the object
spread keeps every other field, including a prior `snoozedUntil`. -/
def markPillTaken (now : Nat) (logId : Nat) (logs : List PillLog) :
    List PillLog :=
  logs.map fun l =>
    if l.id = logId then
      { l with status := Status.taken, takenTime := some now }
    else l

/-- Embedding of `snoozePill` from `src/hooks/usePillSchedule.ts`: the
matching log gets status `snoozed` and `snoozedUntil = now + minutes`;
the spread keeps the other fields, including a prior `takenTime`. -/
def snoozePill (now : Nat) (snoozeMinutes : Nat) (logId : Nat)
    (logs : List PillLog) : List PillLog :=
  logs.map fun l =>
    if l.id = logId then
      { l with status := Status.snoozed, snoozedUntil := some (now + snoozeMinutes) }
    else l

/-- Embedding of `markPillMissed` from `src/hooks/usePillSchedule.ts`:
the matching log gets status `missed`; the spread keeps `takenTime` and
`snoozedUntil`. -/
def markPillMissed (logId : Nat) (logs : List PillLog) : List PillLog :=
  logs.map fun l =>
    if l.id = logId then { l with status := Status.missed } else l

/-- C1 (counterexample): snoozing then marking taken leaves the log with
status `taken` and `snoozedUntil` still present, and a subsequent
`markPillMissed` retains `takenTime` and `snoozedUntil`, so the §3
invariant fails. -/
theorem claim_C1_counterexample :
    markPillTaken 560 1
      (snoozePill 550 15 1 [⟨1, 7, 540, Status.pending, none, none⟩]) =
      [⟨1, 7, 540, Status.taken, some 560, some 565⟩] ∧
    markPillMissed 1 [⟨1, 7, 540, Status.taken, some 560, some 565⟩] =
      [⟨1, 7, 540, Status.missed, some 560, some 565⟩] := by
  decide

/-- C1 (amended): `markPillTaken` sets the matching log's status to
`taken` and `takenTime` to now but leaves a prior `snoozedUntil` in
place; `markPillMissed` sets status `missed` retaining `takenTime` and
`snoozedUntil`; `snoozePill` sets status `snoozed` and `snoozedUntil`
retaining `takenTime`; logs with a different id are unchanged, and each
mutation preserves the list length. -/
theorem claim_C1_mark_mutations_amended (logs : List PillLog)
    (now mins logId : Nat) :
    (∀ l ∈ logs, l.id = logId →
      (⟨l.id, l.pillId, l.scheduledTime, Status.taken, some now,
        l.snoozedUntil⟩ : PillLog) ∈ markPillTaken now logId logs) ∧
    (∀ l ∈ logs, l.id = logId →
      (⟨l.id, l.pillId, l.scheduledTime, Status.missed, l.takenTime,
        l.snoozedUntil⟩ : PillLog) ∈ markPillMissed logId logs) ∧
    (∀ l ∈ logs, l.id = logId →
      (⟨l.id, l.pillId, l.scheduledTime, Status.snoozed, l.takenTime,
        some (now + mins)⟩ : PillLog) ∈ snoozePill now mins logId logs) ∧
    (∀ l ∈ logs, l.id ≠ logId →
      l ∈ markPillTaken now logId logs ∧ l ∈ markPillMissed logId logs ∧
        l ∈ snoozePill now mins logId logs) ∧
    (markPillTaken now logId logs).length = logs.length ∧
    (markPillMissed logId logs).length = logs.length ∧
    (snoozePill now mins logId logs).length = logs.length := by
  refine ⟨?_, ?_, ?_, ?_, List.length_map _ _, List.length_map _ _,
    List.length_map _ _⟩
  · intro l hl hid
    exact List.mem_map.mpr ⟨l, hl, by rw [if_pos hid]⟩
  · intro l hl hid
    exact List.mem_map.mpr ⟨l, hl, by rw [if_pos hid]⟩
  · intro l hl hid
    exact List.mem_map.mpr ⟨l, hl, by rw [if_pos hid]⟩
  · intro l hl hid
    exact ⟨List.mem_map.mpr ⟨l, hl, by rw [if_neg hid]⟩,
      List.mem_map.mpr ⟨l, hl, by rw [if_neg hid]⟩,
      List.mem_map.mpr ⟨l, hl, by rw [if_neg hid]⟩⟩

theorem claim_C1_mark_mutations_amended_witness :
    (⟨3, 7, 540, Status.taken, some 560, some 565⟩ : PillLog) ∈
      markPillTaken 560 3 [⟨3, 7, 540, Status.snoozed, none, some 565⟩] :=
  (claim_C1_mark_mutations_amended
    [⟨3, 7, 540, Status.snoozed, none, some 565⟩] 560 15 3).1
    ⟨3, 7, 540, Status.snoozed, none, some 565⟩
    (List.mem_singleton.mpr rfl) rfl

/-- State managed by `usePillSchedule`: the pill list, the log list and
the `last-schedule-date` marker (initially absent). `nextId` models the
uuid generator as a counter of fresh ids. -/
structure ScheduleState where
  pills : List Pill
  logs : List PillLog
  lastScheduleDate : Option Nat
  nextId : Nat
deriving DecidableEq, Repr

/-- Builds one pending log per (pillId, time-of-day) occurrence with
consecutive fresh ids, with `scheduledTime` equal to today's date
combined with the time of day. -/
def buildLogs (today : Nat) : Nat → List (Nat × Nat) → List PillLog
  | _, [] => []
  | nid, (pid, tm) :: rest =>
    ⟨nid, pid, today * minutesPerDay + tm, Status.pending, none, none⟩ ::
      buildLogs today (nid + 1) rest

/-- Embedding of the daily generation effect of
`src/hooks/usePillSchedule.ts`: when the marker differs from today, one
pending log is appended per pill per time entry and the marker is set to
today; otherwise nothing happens. -/
def generateDailyLogs (today : Nat) (s : ScheduleState) : ScheduleState :=
  if s.lastScheduleDate = some today then s
  else
    { pills := s.pills
      logs := s.logs ++ buildLogs today s.nextId
        (s.pills.flatMap fun p => p.times.map fun tm => (p.id, tm))
      lastScheduleDate := some today
      nextId := s.nextId +
        (s.pills.flatMap fun p => p.times.map fun tm => (p.id, tm)).length }

theorem buildLogs_length (today : Nat) :
    ∀ (occ : List (Nat × Nat)) (nid : Nat),
      (buildLogs today nid occ).length = occ.length := by
  intro occ
  induction occ with
  | nil => intro nid; rfl
  | cons pr rest ih =>
    intro nid
    rcases pr with ⟨pid, tm⟩
    rw [buildLogs, List.length_cons, List.length_cons, ih]

theorem buildLogs_proj (today : Nat) :
    ∀ (occ : List (Nat × Nat)) (nid : Nat),
      (buildLogs today nid occ).map
          (fun l => (l.pillId, l.scheduledTime, l.status)) =
        occ.map (fun pr =>
          (pr.1, today * minutesPerDay + pr.2, Status.pending)) := by
  intro occ
  induction occ with
  | nil => intro nid; rfl
  | cons pr rest ih =>
    intro nid
    rcases pr with ⟨pid, tm⟩
    rw [buildLogs, List.map_cons, List.map_cons, ih]

theorem marker_after_generate (today : Nat) (s : ScheduleState) :
    (generateDailyLogs today s).lastScheduleDate = some today := by
  rw [generateDailyLogs]
  by_cases h : s.lastScheduleDate = some today
  · rw [if_pos h]
    exact h
  · rw [if_neg h]

/-- C2: when the marker differs from today, the generation pass keeps the
pill list, appends exactly one pending log per pill per time entry (with
`scheduledTime` today's date combined with that time of day), and sets
the marker to today; running the pass a second time on the same calendar
date is a no-op. -/
theorem claim_C2_daily_generation (s : ScheduleState) (today : Nat) :
    (s.lastScheduleDate ≠ some today →
      (generateDailyLogs today s).lastScheduleDate = some today ∧
      (generateDailyLogs today s).pills = s.pills ∧
      s.logs <+: (generateDailyLogs today s).logs ∧
      (generateDailyLogs today s).logs.length =
        s.logs.length + (s.pills.map fun p => p.times.length).sum ∧
      ((generateDailyLogs today s).logs.drop s.logs.length).map
          (fun l => (l.pillId, l.scheduledTime, l.status)) =
        s.pills.flatMap (fun p => p.times.map fun tm =>
          (p.id, today * minutesPerDay + tm, Status.pending))) ∧
    generateDailyLogs today (generateDailyLogs today s) =
      generateDailyLogs today s := by
  constructor
  · intro h
    rw [generateDailyLogs, if_neg h]
    refine ⟨rfl, rfl, ⟨_, rfl⟩, ?_, ?_⟩
    · rw [List.length_append, buildLogs_length]
      congr 1
      rw [List.length_flatMap]
      congr 1
      apply List.map_congr_left
      intro p _
      exact List.length_map _ _
    · rw [List.drop_left, buildLogs_proj, List.map_flatMap]
      apply List.flatMap_congr
      intro p _
      rw [List.map_map]
      rfl
  · rw [generateDailyLogs]
    rw [if_pos (marker_after_generate today s)]

theorem claim_C2_daily_generation_witness :
    (generateDailyLogs 3
      ⟨[⟨1, "aspirin", "100mg", [540, 1260], none, none⟩], [], none, 0⟩).logs.length =
        0 + ([(⟨1, "aspirin", "100mg", [540, 1260], none, none⟩ : Pill)].map
          fun p => p.times.length).sum ∧
    generateDailyLogs 3 (generateDailyLogs 3
      ⟨[⟨1, "aspirin", "100mg", [540, 1260], none, none⟩], [], none, 0⟩) =
      generateDailyLogs 3
        ⟨[⟨1, "aspirin", "100mg", [540, 1260], none, none⟩], [], none, 0⟩ := by
  constructor
  · exact ((claim_C2_daily_generation
      ⟨[⟨1, "aspirin", "100mg", [540, 1260], none, none⟩], [], none, 0⟩ 3).1
      (by decide)).2.2.2.1
  · exact (claim_C2_daily_generation
      ⟨[⟨1, "aspirin", "100mg", [540, 1260], none, none⟩], [], none, 0⟩ 3).2

/-- Embedding of `deletePill` (identical in `usePillSchedule.ts` and
`usePills.ts`): one state transition filtering out the pill with the
given id and every log whose `pillId` equals it. -/
def deletePill (pid : Nat) (pills : List Pill) (logs : List PillLog) :
    List Pill × List PillLog :=
  (pills.filter fun p => p.id != pid, logs.filter fun l => l.pillId != pid)

/-- C7 (counterexample): with no pill matching the id but a log whose
`pillId` matches (a dangling reference), `deletePill` still removes that
log, so the two collections are not both left unchanged. -/
theorem claim_C7_counterexample :
    (([] : List Pill).all fun p => p.id != 5) = true ∧
    deletePill 5 [] [⟨1, 5, 540, Status.pending, none, none⟩] ≠
      (([] : List Pill), [⟨1, 5, 540, Status.pending, none, none⟩]) := by
  decide

/-- C7 (amended): `deletePill` removes, in one state transition, exactly
the pills with the given id and exactly the logs whose `pillId` equals
it; every other pill and log is kept in order, and when no pill has the
id and no log references it, both collections are unchanged. -/
theorem claim_C7_deletePill_amended (pid : Nat) (pills : List Pill)
    (logs : List PillLog) :
    (∀ p, p ∈ (deletePill pid pills logs).1 ↔ p ∈ pills ∧ p.id ≠ pid) ∧
    (∀ l, l ∈ (deletePill pid pills logs).2 ↔ l ∈ logs ∧ l.pillId ≠ pid) ∧
    List.Sublist (deletePill pid pills logs).1 pills ∧
    List.Sublist (deletePill pid pills logs).2 logs ∧
    ((∀ p ∈ pills, p.id ≠ pid) → (∀ l ∈ logs, l.pillId ≠ pid) →
      deletePill pid pills logs = (pills, logs)) := by
  refine ⟨?_, ?_, List.filter_sublist _, List.filter_sublist _, ?_⟩
  · intro p
    rw [deletePill]
    rw [List.mem_filter, bne_iff_ne]
  · intro l
    rw [deletePill]
    rw [List.mem_filter, bne_iff_ne]
  · intro hp hl
    rw [deletePill, List.filter_eq_self.mpr, List.filter_eq_self.mpr]
    · intro a ha
      rw [bne_iff_ne]
      exact hl a ha
    · intro a ha
      rw [bne_iff_ne]
      exact hp a ha

theorem claim_C7_deletePill_amended_witness :
    deletePill 9 [⟨1, "aspirin", "100mg", [540], none, none⟩]
      [⟨1, 1, 540, Status.pending, none, none⟩] =
      ([⟨1, "aspirin", "100mg", [540], none, none⟩],
       [⟨1, 1, 540, Status.pending, none, none⟩]) :=
  (claim_C7_deletePill_amended 9 [⟨1, "aspirin", "100mg", [540], none, none⟩]
    [⟨1, 1, 540, Status.pending, none, none⟩]).2.2.2.2
    (by decide) (by decide)

/-- State of one `useLocalStorage` hook instance: the React state value
and the persisted value under the hook's key (absent until written). -/
structure LSState where
  mem : String
  store : Option String
deriving DecidableEq, Repr

/-- Embedding of `useLocalStorage.setValue`: inside the `try` block the
React state is updated first (`setStoredValue(valueToStore)`), then
`localStorage.setItem` runs and may throw (`writeFails`); the `catch`
only logs, so the state update always survives while the store keeps its
old value on failure. -/
def setValueLS (s : LSState) (v : String) (writeFails : Bool) : LSState :=
  { mem := v, store := if writeFails then s.store else some v }

/-- C9: the code sets the in-memory state before attempting the
persistent write, so after a failed write the in-memory value is the NEW
value, not the last-known-good one; at the concrete failing input the
memory holds "updated" although the store still holds "initial". -/
theorem claim_C9_write_failure_keeps_new_value :
    (∀ (s : LSState) (v : String), (setValueLS s v true).mem = v) ∧
    (setValueLS ⟨"initial", some "initial"⟩ "updated" true).mem =
      "updated" ∧
    (setValueLS ⟨"initial", some "initial"⟩ "updated" true).store =
      some "initial" ∧
    "updated" ≠ "initial" :=
  ⟨fun _ _ => rfl, rfl, rfl, by decide⟩

/-- Embedding of `logPillTaken` from `src/hooks/usePills.ts`: appends a
brand-new taken row. -/
def logPillTaken (now freshId pid schedTime : Nat) (logs : List PillLog) :
    List PillLog :=
  logs ++ [⟨freshId, pid, schedTime, Status.taken, some now, none⟩]

/-- Embedding of `logPillMissed` from `src/hooks/usePills.ts`: appends a
brand-new missed row. -/
def logPillMissed (freshId pid schedTime : Nat) (logs : List PillLog) :
    List PillLog :=
  logs ++ [⟨freshId, pid, schedTime, Status.missed, none, none⟩]

/-- Embedding of `snoozePill` from `src/hooks/usePills.ts` (named apart
from the in-place `snoozePill` of `usePillSchedule.ts`): appends a
brand-new snoozed row with `snoozedUntil = now + minutes`. -/
def snoozePillAppend (now mins freshId pid schedTime : Nat)
    (logs : List PillLog) : List PillLog :=
  logs ++ [⟨freshId, pid, schedTime, Status.snoozed, none,
    some (now + mins)⟩]

/-- One mutation of the `usePills` log list. -/
inductive PillOp where
  | take (now pid sched : Nat)
  | miss (pid sched : Nat)
  | snooze (now mins pid sched : Nat)
deriving DecidableEq, Repr

/-- Applies one mutation, drawing the fresh id from a counter. -/
def applyOp (st : List PillLog × Nat) (op : PillOp) : List PillLog × Nat :=
  match op with
  | PillOp.take now pid sched => (logPillTaken now st.2 pid sched st.1, st.2 + 1)
  | PillOp.miss pid sched => (logPillMissed st.2 pid sched st.1, st.2 + 1)
  | PillOp.snooze now mins pid sched =>
    (snoozePillAppend now mins st.2 pid sched st.1, st.2 + 1)

/-- Applies a sequence of mutations. -/
def applyOps (st : List PillLog × Nat) (ops : List PillOp) :
    List PillLog × Nat :=
  ops.foldl applyOp st

theorem applyOp_append (st : List PillLog × Nat) (op : PillOp) :
    ∃ newLog : PillLog, (applyOp st op).1 = st.1 ++ [newLog] ∧
      newLog.id = st.2 ∧ (applyOp st op).2 = st.2 + 1 := by
  cases op with
  | take now pid sched =>
    exact ⟨⟨st.2, pid, sched, Status.taken, some now, none⟩, rfl, rfl, rfl⟩
  | miss pid sched =>
    exact ⟨⟨st.2, pid, sched, Status.missed, none, none⟩, rfl, rfl, rfl⟩
  | snooze now mins pid sched =>
    exact ⟨⟨st.2, pid, sched, Status.snoozed, none, some (now + mins)⟩,
      rfl, rfl, rfl⟩

theorem applyOps_length_and_isPre (ops : List PillOp) :
    ∀ st : List PillLog × Nat,
      (applyOps st ops).1.length = st.1.length + ops.length ∧
        st.1 <+: (applyOps st ops).1 := by
  induction ops with
  | nil =>
    intro st
    exact ⟨rfl, ⟨[], List.append_nil _⟩⟩
  | cons op rest ih =>
    intro st
    obtain ⟨newLog, hap, -, -⟩ := applyOp_append st op
    have hstep : applyOps st (op :: rest) = applyOps (applyOp st op) rest :=
      rfl
    obtain ⟨hlen, hpre⟩ := ih (applyOp st op)
    constructor
    · rw [hstep, hlen, hap, List.length_append, List.length_singleton,
        List.length_cons]
      omega
    · rw [hstep]
      refine List.IsPrefix.trans ?_ hpre
      rw [hap]
      exact ⟨[newLog], rfl⟩

/-- C10: the `usePills` mutations only ever append one brand-new row per
call: the log grows by exactly one entry per mutation, the prior entries
survive unchanged as a prefix, the new row's id is fresh when the
counter dominates the existing ids, and one occurrence (same `pillId`
and `scheduledTime`) accumulates several rows with different terminal
statuses. -/
theorem claim_C10_append_only (st : List PillLog × Nat)
    (ops : List PillOp) :
    (applyOps st ops).1.length = st.1.length + ops.length ∧
    st.1 <+: (applyOps st ops).1 ∧
    (∀ op : PillOp, (∀ l ∈ st.1, l.id < st.2) →
      ∃ newLog : PillLog, (applyOp st op).1 = st.1 ++ [newLog] ∧
        (∀ l ∈ st.1, l.id ≠ newLog.id) ∧
        (∀ l ∈ (applyOp st op).1, l.id < (applyOp st op).2)) ∧
    (applyOps ([], 0) [PillOp.take 100 7 540, PillOp.miss 7 540]).1 =
      [⟨0, 7, 540, Status.taken, some 100, none⟩,
       ⟨1, 7, 540, Status.missed, none, none⟩] := by
  refine ⟨(applyOps_length_and_isPre ops st).1,
    (applyOps_length_and_isPre ops st).2, ?_, by decide⟩
  intro op hlt
  obtain ⟨newLog, hap, hid, hctr⟩ := applyOp_append st op
  refine ⟨newLog, hap, ?_, ?_⟩
  · intro l hl
    rw [hid]
    exact Nat.ne_of_lt (hlt l hl)
  · intro l hl
    rw [hap] at hl
    rw [hctr]
    rcases List.mem_append.mp hl with h1 | h1
    · exact Nat.lt_succ_of_lt (hlt l h1)
    · rw [List.mem_singleton.mp h1, hid]
      exact Nat.lt_succ_self _

theorem claim_C10_append_only_witness :
    ∃ newLog : PillLog,
      (applyOp ([⟨0, 7, 540, Status.taken, some 100, none⟩], 5)
        (PillOp.miss 7 540)).1 =
        [⟨0, 7, 540, Status.taken, some 100, none⟩] ++ [newLog] ∧
      (∀ l ∈ [(⟨0, 7, 540, Status.taken, some 100, none⟩ : PillLog)],
        l.id ≠ newLog.id) ∧
      (∀ l ∈ (applyOp ([⟨0, 7, 540, Status.taken, some 100, none⟩], 5)
        (PillOp.miss 7 540)).1,
        l.id < (applyOp ([⟨0, 7, 540, Status.taken, some 100, none⟩], 5)
          (PillOp.miss 7 540)).2) :=
  (claim_C10_append_only ([⟨0, 7, 540, Status.taken, some 100, none⟩], 5)
    []).2.2.1 (PillOp.miss 7 540) (by decide)

/-- Per-day aggregation of `ComplianceHeatmap.tsx` (`DayData`): counts of
taken and missed entries scheduled on the day, their sum, and the
compliance percentage (rational). -/
structure DayData where
  date : Nat
  taken : Nat
  missed : Nat
  total : Nat
  compliance : ℚ
deriving DecidableEq, Repr

/-- Embedding of the per-day computation inside `heatmapData`: filter the
logs scheduled on the day, count taken and missed, and compute
`taken / total * 100` when the denominator is nonzero, else 0. -/
def dayData (logs : List PillLog) (d : Nat) : DayData :=
  { date := d
    taken := ((logs.filter fun l => day l.scheduledTime == d).filter
      fun l => l.status == Status.taken).length
    missed := ((logs.filter fun l => day l.scheduledTime == d).filter
      fun l => l.status == Status.missed).length
    total := ((logs.filter fun l => day l.scheduledTime == d).filter
        fun l => l.status == Status.taken).length +
      ((logs.filter fun l => day l.scheduledTime == d).filter
        fun l => l.status == Status.missed).length
    compliance :=
      if 0 < ((logs.filter fun l => day l.scheduledTime == d).filter
          fun l => l.status == Status.taken).length +
        ((logs.filter fun l => day l.scheduledTime == d).filter
          fun l => l.status == Status.missed).length
      then (((logs.filter fun l => day l.scheduledTime == d).filter
          fun l => l.status == Status.taken).length : ℚ) /
        ((((logs.filter fun l => day l.scheduledTime == d).filter
            fun l => l.status == Status.taken).length +
          ((logs.filter fun l => day l.scheduledTime == d).filter
            fun l => l.status == Status.missed).length : Nat) : ℚ) * 100
      else 0 }

/-- Embedding of the `heatmapData` memo: one `DayData` per day of the
trailing window, oldest first; the entry at position `j` covers the day
`today - (daysToShow - 1 - j)`. -/
def heatmapData (logs : List PillLog) (today daysToShow : Nat) :
    List DayData :=
  (List.range daysToShow).map fun j =>
    dayData logs (today - (daysToShow - 1 - j))

/-- Embedding of `getColorClass`: the CSS class of a heatmap cell; a day
without data is grey, distinct from every populated bucket including the
0% one. -/
def getColorClass (compliance : ℚ) (hasData : Bool) : String :=
  if !hasData then "bg-gray-700"
  else if compliance == 100 then "bg-green-500"
  else if compliance ≥ 80 then "bg-green-400"
  else if compliance ≥ 60 then "bg-yellow-500"
  else if compliance ≥ 40 then "bg-orange-500"
  else if compliance > 0 then "bg-red-500"
  else "bg-red-700"

/-- Rendering of one cell: `hasData` is `total > 0` as in the
component. -/
def cellClass (dd : DayData) : String :=
  getColorClass dd.compliance (decide (0 < dd.total))

/-- Embedding of the `overallCompliance` memo: taken over taken-plus-
missed across the entire log, as a percentage, 0 when there is no
data. -/
def overallCompliance (logs : List PillLog) : ℚ :=
  if 0 < (logs.filter fun l =>
      l.status == Status.taken || l.status == Status.missed).length
  then ((logs.filter fun l => l.status == Status.taken).length : ℚ) /
    (((logs.filter fun l =>
      l.status == Status.taken || l.status == Status.missed).length : Nat) : ℚ)
    * 100
  else 0

theorem filter_and_comm (l : List PillLog) (p q : PillLog → Bool) :
    l.filter (fun a => p a && q a) = l.filter (fun a => q a && p a) := by
  apply List.filter_congr
  intro a _
  cases p a <;> cases q a <;> rfl

theorem length_filter_taken_or_missed (logs : List PillLog) :
    (logs.filter fun l =>
      l.status == Status.taken || l.status == Status.missed).length =
    (logs.filter fun l => l.status == Status.taken).length +
      (logs.filter fun l => l.status == Status.missed).length := by
  induction logs with
  | nil => rfl
  | cons x xs ih =>
    rcases x with ⟨i, p, s, status, tt, sn⟩
    cases status <;> simp [List.filter_cons, ih] <;> omega

theorem dayData_compliance_val (logs : List PillLog) (d tk ms : Nat)
    (h1 : (dayData logs d).taken = tk) (h2 : (dayData logs d).missed = ms)
    (h3 : 0 < tk + ms) :
    (dayData logs d).compliance = (tk : ℚ) / ((tk + ms : Nat) : ℚ) * 100 := by
  rw [← h1, ← h2] at h3 ⊢
  show (if 0 < (dayData logs d).taken + (dayData logs d).missed
    then ((dayData logs d).taken : ℚ) /
      (((dayData logs d).taken + (dayData logs d).missed : Nat) : ℚ) * 100
    else 0) = _
  rw [if_pos h3]

/-- C8: each heatmap entry covers one day of the trailing window; a day's
compliance counts only the taken and missed entries scheduled on that
day (pending and snoozed excluded), equals taken / (taken + missed) *
100 when the denominator is positive and 0 otherwise; a day with zero
denominator renders as the no-data cell, distinct from a populated 0%
day; overall compliance is the same ratio over the entire log; and a day
with 2 taken and 1 missed scores 200/3 percent. -/
theorem claim_C8_compliance_heatmap (logs : List PillLog)
    (today N j : Nat) (h2 : j < (heatmapData logs today N).length) :
    (heatmapData logs today N).get ⟨j, h2⟩ =
      dayData logs (today - (N - 1 - j)) ∧
    (∀ d : Nat,
      (dayData logs d).taken = (logs.filter fun l =>
        (day l.scheduledTime == d) && (l.status == Status.taken)).length ∧
      (dayData logs d).missed = (logs.filter fun l =>
        (day l.scheduledTime == d) && (l.status == Status.missed)).length ∧
      (dayData logs d).total =
        (dayData logs d).taken + (dayData logs d).missed ∧
      (dayData logs d).compliance =
        (if 0 < (dayData logs d).total
         then ((dayData logs d).taken : ℚ) /
           (((dayData logs d).total : Nat) : ℚ) * 100
         else 0)) ∧
    (∀ d : Nat, (dayData logs d).total = 0 →
      cellClass (dayData logs d) = "bg-gray-700") ∧
    cellClass ⟨0, 0, 2, 2, 0⟩ = "bg-red-700" ∧
    "bg-red-700" ≠ "bg-gray-700" ∧
    overallCompliance logs =
      (if 0 < (logs.filter fun l => l.status == Status.taken).length +
          (logs.filter fun l => l.status == Status.missed).length
       then ((logs.filter fun l => l.status == Status.taken).length : ℚ) /
         ((((logs.filter fun l => l.status == Status.taken).length +
           (logs.filter fun l => l.status == Status.missed).length : Nat)) : ℚ)
         * 100
       else 0) ∧
    (dayData [⟨1, 1, 540, Status.taken, some 545, none⟩,
      ⟨2, 1, 700, Status.taken, some 705, none⟩,
      ⟨3, 1, 800, Status.missed, none, none⟩] 0).compliance = 200 / 3 := by
  refine ⟨?_, ?_, ?_, by decide, by decide, ?_, ?_⟩
  · simp [heatmapData]
  · intro d
    refine ⟨?_, ?_, rfl, rfl⟩
    · show ((logs.filter fun l => day l.scheduledTime == d).filter
        fun l => l.status == Status.taken).length = _
      rw [List.filter_filter,
        filter_and_comm logs (fun l => l.status == Status.taken)
          (fun l => day l.scheduledTime == d)]
    · show ((logs.filter fun l => day l.scheduledTime == d).filter
        fun l => l.status == Status.missed).length = _
      rw [List.filter_filter,
        filter_and_comm logs (fun l => l.status == Status.missed)
          (fun l => day l.scheduledTime == d)]
  · intro d h
    rw [cellClass, h]
    rfl
  · rw [overallCompliance, length_filter_taken_or_missed]
  · rw [dayData_compliance_val
      [⟨1, 1, 540, Status.taken, some 545, none⟩,
       ⟨2, 1, 700, Status.taken, some 705, none⟩,
       ⟨3, 1, 800, Status.missed, none, none⟩] 0 2 1 (by decide) (by decide)
      (by decide)]
    norm_num

theorem claim_C8_compliance_heatmap_witness :
    (heatmapData [] 3 3).get ⟨0, by decide⟩ = dayData [] (3 - (3 - 1 - 0)) :=
  (claim_C8_compliance_heatmap [] 3 3 0 (by decide)).1
